import Mathlib

/-!
Verification of the swiftui-synth pipeline: a shallow embedding of
`src/input/parser.rs` (`parse_examples`, `parse_element`),
`src/synthesis/swiftui.rs` (`synthesize_layout`) and
`src/output/render.rs` (`render_swiftui`,
`normalize_whitespace_internal`), together with theorems settling the
specification claims.

Strings are modelled as `List Char`.  Rust functions that can panic
(out-of-range or non-character-boundary slicing) are embedded with an
explicit `panicked` outcome, so that safety claims about them can be
settled faithfully.
-/

namespace SwiftuiSynth

/-- Left curly brace character (written via its code point). -/
def lbrace : Char := Char.ofNat 123

/-- Right curly brace character (written via its code point). -/
def rbrace : Char := Char.ofNat 125

/-- Characters of a string literal. -/
def strChars (s : String) : List Char := s.data

/-- Tagged union of parsed values, mirroring `Value` in `src/ast/types.rs`:
`Int(i32)`, `String(String)`, `Dict(Vec<(String, Value)>)`.  The `i32`
payload is an `Int`; the parser enforces the 32-bit range exactly where
the Rust code calls `value.parse::<i32>()`. -/
inductive Value where
  | int (n : Int)
  | str (s : List Char)
  | dict (entries : List (List Char × Value))

/-- Layout IR, mirroring `IR` in `src/ast/ir.rs`. -/
inductive IR where
  | vstack (children : List IR)
  | hstack (children : List IR)
  | text (s : List Char)
  | button (label : List Char)
  | image (name : List Char)
  | spacer

/-- The distinct error conditions of `parse_examples` / `parse_element`,
one constructor per `Err(...)` site in `src/input/parser.rs` (the Rust
code returns `String` messages; the constructor names paraphrase them). -/
inductive ParseErr where
  | notEnclosedBraces
  | emptyInput
  | closeParenAtZero
  | missingColonAfterDims
  | colonBeforeDims
  | parensNotClosed
  | noSeparatorFound
  | dimsNotParenthesized
  | extraParensInDims
  | missingDimValue
  | invalidWidth
  | invalidHeight
  | unsupportedDimKey
  | missingWidth
  | missingHeight
  | hstackNotBraced
  | hstackChildNotQuoted
  | elementsNotBraced
  | unsupportedElementKey
  | missingElementValue
  | valueNotQuoted
deriving DecidableEq

/-- Outcome of a fallible Rust function: `ok`/`err` mirror `Result`,
and `panicked` records that the Rust code would panic (an out-of-range
or non-character-boundary slice index). -/
inductive PResult (α : Type) where
  | ok (v : α)
  | err (e : ParseErr)
  | panicked

/-- Sequencing of fallible steps (`?` in the Rust code). -/
def PResult.bind {α β : Type} : PResult α → (α → PResult β) → PResult β
  | .ok v, f => f v
  | .err e, _ => .err e
  | .panicked, _ => .panicked

/-- The Unicode `White_Space` property, as used by Rust's
`char::is_whitespace` (`str::trim`, `trim_end`, and the separator
lookahead rely on it). -/
def rustIsWhitespace (c : Char) : Bool :=
  c.toNat = 0x09 || c.toNat = 0x0A || c.toNat = 0x0B || c.toNat = 0x0C ||
  c.toNat = 0x0D || c.toNat = 0x20 || c.toNat = 0x85 || c.toNat = 0xA0 ||
  c.toNat = 0x1680 || (0x2000 ≤ c.toNat && c.toNat ≤ 0x200A) ||
  c.toNat = 0x2028 || c.toNat = 0x2029 || c.toNat = 0x202F ||
  c.toNat = 0x205F || c.toNat = 0x3000

/-- Rust `str::trim_start`. -/
def rustTrimStart (l : List Char) : List Char := l.dropWhile rustIsWhitespace

/-- Rust `str::trim_end`. -/
def rustTrimEnd (l : List Char) : List Char :=
  (l.reverse.dropWhile rustIsWhitespace).reverse

/-- Rust `str::trim`. -/
def rustTrim (l : List Char) : List Char := rustTrimEnd (rustTrimStart l)

/-- Rust `str::starts_with(c)` for a single char. -/
def headIs (l : List Char) (c : Char) : Bool :=
  match l with
  | [] => false
  | x :: _ => x = c

/-- Rust `str::ends_with(c)` for a single char. -/
def lastIs (l : List Char) (c : Char) : Bool :=
  match l.getLast? with
  | some x => x = c
  | none => false

/-- Rust `str::trim_start_matches(c)`: strips every leading `c`. -/
def trimStartMatchesChar (c : Char) (l : List Char) : List Char :=
  l.dropWhile (fun x => x = c)

/-- Rust `str::trim_end_matches(c)`: strips every trailing `c`. -/
def trimEndMatchesChar (c : Char) (l : List Char) : List Char :=
  (l.reverse.dropWhile (fun x => x = c)).reverse

/-- Rust `str::trim_matches(c)`: strips every leading and trailing `c`. -/
def trimMatchesChar (c : Char) (l : List Char) : List Char :=
  trimEndMatchesChar c (trimStartMatchesChar c l)

/-- Rust `str::split(c)`: always yields at least one (possibly empty)
piece; empty pieces between adjacent separators are kept. -/
def splitOnChar (c : Char) : List Char → List (List Char)
  | [] => [[]]
  | x :: xs =>
    match splitOnChar c xs with
    | [] => [[]]
    | h :: t => if x = c then [] :: h :: t else (x :: h) :: t

/-- Rust `str::splitn(2, c)` as used with two `next()` calls: the text
before the first `c`, and, when `c` occurs, the text after it. -/
def splitFirst (c : Char) : List Char → List Char × Option (List Char)
  | [] => ([], none)
  | x :: xs =>
    if x = c then ([], some xs)
    else
      let r := splitFirst c xs
      (x :: r.1, r.2)

/-- Rust byte slicing `&s[..n]`: `n` is a byte offset into the UTF-8
encoding.  Returns `none` (a panic) when `n` is out of range or not a
character boundary. -/
def byteTake : List Char → Nat → Option (List Char)
  | _, 0 => some []
  | [], _ + 1 => none
  | c :: cs, n + 1 =>
    if c.utf8Size ≤ n + 1 then (byteTake cs (n + 1 - c.utf8Size)).map (c :: ·)
    else none

/-- Rust byte slicing `&s[n..]`: `none` is a panic, as in `byteTake`. -/
def byteDrop : List Char → Nat → Option (List Char)
  | l, 0 => some l
  | [], _ + 1 => none
  | c :: cs, n + 1 =>
    if c.utf8Size ≤ n + 1 then byteDrop cs (n + 1 - c.utf8Size)
    else none

/-- Key and literal strings used by the pipeline. -/
def widthChars : List Char := strChars "width"

def heightChars : List Char := strChars "height"

def titleChars : List Char := strChars "title"

def buttonChars : List Char := strChars "button"

def imageChars : List Char := strChars "Image"

def hstackChars : List Char := strChars "HStack"

def spacerChars : List Char := strChars "Spacer"

/-! ## The separator scan (`parse_examples`, lines 17-59) -/

/-- After the parenthesis depth returns to 0, skip whitespace and demand
a `:` (lines 31-42); returns the character index of the colon. -/
def findColonAfter : List Char → Nat → PResult Nat
  | [], _ => .err .missingColonAfterDims
  | c :: cs, idx =>
    if rustIsWhitespace c then findColonAfter cs (idx + 1)
    else if c = ':' then .ok idx
    else .err .missingColonAfterDims

/-- The depth-tracking walk over the interior (lines 21-59): `i` is the
character index of the head of the remaining list, `depth` the current
parenthesis depth.  Returns the character index of the separator colon. -/
def sepScan : List Char → Nat → Nat → PResult Nat
  | [], _, depth =>
    if depth = 0 then .err .noSeparatorFound else .err .parensNotClosed
  | c :: cs, i, depth =>
    if c = '(' then sepScan cs (i + 1) (depth + 1)
    else if c = ')' then
      if depth = 0 then .err .closeParenAtZero
      else if depth = 1 then findColonAfter cs (i + 1)
      else sepScan cs (i + 1) (depth - 1)
    else if c = ':' then
      if depth = 0 then .err .colonBeforeDims
      else sepScan cs (i + 1) depth
    else sepScan cs (i + 1) depth

/-! ## 32-bit integer parsing (`value.parse::<i32>()`) -/

/-- Smallest `i32` value. -/
def i32Min : Int := -2147483648

/-- Largest `i32` value. -/
def i32Max : Int := 2147483647

/-- Value of an ASCII decimal digit. -/
def digitVal (c : Char) : Option Nat :=
  if '0' ≤ c ∧ c ≤ '9' then some (c.toNat - '0'.toNat) else none

/-- Digit accumulation for a non-negative `i32`, rejecting at the first
step whose running value leaves the range (Rust's checked accumulation
in `i32::from_str`). -/
def accumPos : List Char → Int → Option Int
  | [], acc => some acc
  | c :: cs, acc =>
    match digitVal c with
    | none => none
    | some d =>
      if i32Max < acc * 10 + d then none else accumPos cs (acc * 10 + d)

/-- Digit accumulation for a negative `i32`. -/
def accumNeg : List Char → Int → Option Int
  | [], acc => some acc
  | c :: cs, acc =>
    match digitVal c with
    | none => none
    | some d =>
      if acc * 10 - d < i32Min then none else accumNeg cs (acc * 10 - d)

/-- Model of Rust `str::parse::<i32>()`: optional sign, at least one
ASCII digit, overflow rejected. -/
def rustParseI32 (s : List Char) : Option Int :=
  match s with
  | [] => none
  | '+' :: rest => if rest.isEmpty then none else accumPos rest 0
  | '-' :: rest => if rest.isEmpty then none else accumNeg rest 0
  | l => accumPos l 0

/-! ## Dimension parsing (`parse_examples`, lines 62-95) -/

/-- One comma-separated piece of the dimensions interior (lines 80-92).
The accumulator is the pair of `width`/`height` options. -/
def parseDimPart (acc : Option Int × Option Int) (part : List Char) :
    PResult (Option Int × Option Int) :=
  let part := rustTrim part
  if part.isEmpty then .ok acc
  else
    match splitFirst ':' part with
    | (_, none) => .err .missingDimValue
    | (k, some v) =>
      let key := rustTrim k
      let value := rustTrim v
      if key = widthChars then
        match rustParseI32 value with
        | some w => .ok (some w, acc.2)
        | none => .err .invalidWidth
      else if key = heightChars then
        match rustParseI32 value with
        | some h => .ok (acc.1, some h)
        | none => .err .invalidHeight
      else .err .unsupportedDimKey

/-- Fold of `parseDimPart` over all pieces, stopping at the first error. -/
def parseDimParts : List (List Char) → Option Int × Option Int →
    PResult (Option Int × Option Int)
  | [], acc => .ok acc
  | p :: ps, acc => (parseDimPart acc p).bind (parseDimParts ps)

/-- The dimensions phase (lines 67-95): parenthesis envelope check, the
nested-parenthesis rejection on the content between the outer pair, the
comma fold, and the final presence checks for `width` and `height`. -/
def parseDims (dimsStr : List Char) : PResult (Int × Int) :=
  if ¬ (headIs dimsStr '(' ∧ lastIs dimsStr ')') then .err .dimsNotParenthesized
  else
    let dimsInner := rustTrim (trimEndMatchesChar ')' (trimStartMatchesChar '(' dimsStr))
    let dimsContent := (dimsStr.drop 1).dropLast
    if dimsContent.contains '(' || dimsContent.contains ')' then .err .extraParensInDims
    else
      (parseDimParts (splitOnChar ',' dimsInner) (none, none)).bind fun wh =>
        match wh with
        | (some w, some h) => .ok (w, h)
        | (none, _) => .err .missingWidth
        | (some _, none) => .err .missingHeight

/-! ## Element parsing (`parse_examples`, lines 97-189, and `parse_element`) -/

/-- The escape loop of `parse_element` (lines 213-230): `\"` and `\\`
are unescaped, any other backslash is kept literally. -/
def unescapeValue : List Char → List Char
  | [] => []
  | '\\' :: '"' :: r => '"' :: unescapeValue r
  | '\\' :: '\\' :: r => '\\' :: unescapeValue r
  | '\\' :: rest => '\\' :: unescapeValue rest
  | c :: rest => c :: unescapeValue rest

/-- `parse_element` (lines 193-234).  The `panicked` outcome models the
slice `&value_str[1..value_str.len()-1]`, which panics in Rust when the
value is the single character `"` (start index 1 exceeds end index 0). -/
def parseElement (elem : List Char) : PResult (List Char × Value) :=
  match splitFirst ':' elem with
  | (k, rest) =>
    let key := rustTrim k
    if ¬ (key = titleChars ∨ key = buttonChars ∨ key = imageChars) then
      .err .unsupportedElementKey
    else
      match rest with
      | none => .err .missingElementValue
      | some v =>
        let valueStr := rustTrim v
        if ¬ (headIs valueStr '"' ∧ lastIs valueStr '"') then .err .valueNotQuoted
        else if valueStr.length = 1 then .panicked
        else .ok (key, .str (unescapeValue ((valueStr.drop 1).dropLast)))

/-- The quote- and escape-aware comma splitter (lines 138-179): walks
the element interior with the `current` buffer, the `in_quotes` flag and
the one-shot `escaped` flag, flushing each comma-separated segment
through `parseElement`. -/
def splitElemsLoop : List Char → List Char → Bool → Bool →
    List (List Char × Value) → PResult (List (List Char × Value))
  | [], current, _, _, acc =>
    let elem := rustTrim current
    if elem.isEmpty then .ok acc
    else (parseElement elem).bind fun p => .ok (acc ++ [p])
  | ch :: rest, current, inQuotes, escaped, acc =>
    if ch = '\\' ∧ escaped = false then
      splitElemsLoop rest current inQuotes true acc
    else if ch = '"' ∧ escaped = false then
      splitElemsLoop rest (current ++ ['"']) (!inQuotes) false acc
    else if ch = ',' ∧ inQuotes = false then
      let elem := rustTrim current
      if elem.isEmpty then splitElemsLoop rest [] inQuotes false acc
      else
        (parseElement elem).bind fun p =>
          splitElemsLoop rest [] inQuotes false (acc ++ [p])
    else
      let current' :=
        if escaped ∧ (ch = '\\' ∨ ch = '"') then current ++ [ch]
        else if escaped = true then current ++ ['\\', ch]
        else current ++ [ch]
      splitElemsLoop rest current' inQuotes false acc

/-- One comma-separated HStack child (lines 109-118): must be a quoted
string; the quotes are stripped by the slice `&elem[1..elem.len()-1]`,
which panics when the child is the single character `"`.  The synthetic
key is `child` followed by the running child count. -/
def parseHStackChild (acc : List (List Char × Value)) (elem : List Char) :
    PResult (List (List Char × Value)) :=
  let elem := rustTrim elem
  if elem.isEmpty then .ok acc
  else if ¬ (headIs elem '"' ∧ lastIs elem '"') then .err .hstackChildNotQuoted
  else if elem.length = 1 then .panicked
  else
    .ok (acc ++ [(strChars "child" ++ (toString acc.length).data,
      Value.str ((elem.drop 1).dropLast))])

/-- Fold of `parseHStackChild` over all pieces. -/
def parseHStackChildren : List (List Char) → List (List Char × Value) →
    PResult (List (List Char × Value))
  | [], acc => .ok acc
  | e :: es, acc => (parseHStackChild acc e).bind (parseHStackChildren es)

/-- The elements phase (lines 97-187): the `HStack:` literal-prefix
branch (lines 100-127) or the regular quoted-element branch, producing
the elements `Value` of the example. -/
def parseElementsPhase (elementsStr : List Char) : PResult Value :=
  let elementsStr := rustTrim elementsStr
  if (strChars "HStack:").isPrefixOf elementsStr then
    let hstackInner := rustTrim (elementsStr.drop 7)
    if ¬ (headIs hstackInner lbrace ∧ lastIs hstackInner rbrace) then
      .err .hstackNotBraced
    else
      let childrenStr := (hstackInner.drop 1).dropLast
      (parseHStackChildren (splitOnChar ',' childrenStr) []).bind fun children =>
        .ok (Value.dict [(hstackChars, Value.dict children)])
  else if ¬ (headIs elementsStr lbrace ∧ lastIs elementsStr rbrace) then
    .err .elementsNotBraced
  else
    let elementsInner := rustTrim ((elementsStr.drop 1).dropLast)
    (splitElemsLoop elementsInner [] false false []).bind fun elems =>
      .ok (Value.dict elems)

/-! ## The top level of `parse_examples` -/

/-- Lines 5-14: trim, check the curly-brace envelope, strip it, and
reject an empty interior. -/
def checkEnvelope (input : List Char) : PResult (List Char) :=
  let trimmed := rustTrim input
  if ¬ (headIs trimmed lbrace ∧ lastIs trimmed rbrace) then .err .notEnclosedBraces
  else
    let inner := (trimmed.drop 1).dropLast
    if inner.isEmpty then .err .emptyInput else .ok inner

/-- Lines 64-65: `&inner[..colon_idx]` and `&inner[colon_idx + 1..]`.
`colon_idx` is a character index produced by the scan, but the Rust
code uses it as a byte index, so the slices can panic on multi-byte
input. -/
def byteSplitAt (inner : List Char) (colonIdx : Nat) :
    PResult (List Char × List Char) :=
  match byteTake inner colonIdx with
  | none => .panicked
  | some dimsPart =>
    match byteDrop inner (colonIdx + 1) with
    | none => .panicked
    | some elemsPart => .ok (rustTrim dimsPart, rustTrim elemsPart)

/-- The dimensions mapping built at both `Ok` sites (lines 119-123 and
181-185). -/
def mkDims (w h : Int) : Value :=
  Value.dict [(widthChars, Value.int w), (heightChars, Value.int h)]

/-- `parse_examples` (`src/input/parser.rs`): the full parsing pipeline. -/
def parseExamples (input : List Char) : PResult (List (Value × Value)) :=
  (checkEnvelope input).bind fun inner =>
  (sepScan inner 0 0).bind fun colonIdx =>
  (byteSplitAt inner colonIdx).bind fun ds =>
  (parseDims ds.1).bind fun wh =>
  (parseElementsPhase ds.2).bind fun ev =>
  .ok [(mkDims wh.1 wh.2, ev)]

/-! ## `synthesize_layout` (`src/synthesis/swiftui.rs`) -/

/-- The single pass over the element entries of the VStack branch
(lines 37-46): each matching entry overwrites the corresponding slot,
so the accumulator ends at the slot's final assignment.  The triple is
`(title, button, image)`. -/
def vstackScan (elems : List (List Char × Value)) :
    Option (List Char) × Option (List Char) × Option (List Char) :=
  elems.foldl (fun acc p =>
    match p.2 with
    | Value.str s =>
      if p.1 = titleChars then (some s, acc.2.1, acc.2.2)
      else if p.1 = buttonChars then (acc.1, some s, acc.2.2)
      else if p.1 = imageChars then (acc.1, acc.2.1, some s)
      else acc
    | _ => acc) (none, none, none)

/-- The VStack child assembly (lines 48-60): `Image`, then `title`,
then the unconditional `Spacer`, then a non-empty `button`. -/
def vstackChildren
    (tbi : Option (List Char) × Option (List Char) × Option (List Char)) :
    List IR :=
  (match tbi.2.2 with
   | some img => [IR.image img]
   | none => []) ++
  (match tbi.1 with
   | some t => [IR.text t]
   | none => []) ++
  [IR.spacer] ++
  (match tbi.2.1 with
   | some b => if b.isEmpty then [] else [IR.button b]
   | none => [])

/-- The HStack child translation (lines 11-27): a `String` child is
quote-trimmed and becomes `Spacer` when the trimmed text is the literal
`Spacer`, otherwise `Text` of the trimmed text; non-`String` children
are skipped. -/
def hstackChildItems (children : List (List Char × Value)) : List IR :=
  children.foldl (fun acc p =>
    match p.2 with
    | Value.str s =>
      let t := trimMatchesChar '"' s
      if t = spacerChars then acc ++ [IR.spacer] else acc ++ [IR.text t]
    | _ => acc) []

/-- `synthesize_layout` (`src/synthesis/swiftui.rs`): inspects the first
example only; the HStack branch fires when the first `HStack` entry of
the elements dictionary is itself a dictionary, otherwise the VStack
branch runs. -/
def synthesizeLayout (examples : List (Value × Value)) : Option IR :=
  match examples with
  | [] => none
  | (_, elements) :: _ =>
    match elements with
    | Value.dict elems =>
      match elems.find? (fun p => decide (p.1 = hstackChars)) with
      | some (_, Value.dict children) => some (IR.hstack (hstackChildItems children))
      | _ => some (IR.vstack (vstackChildren (vstackScan elems)))
    | _ => some (IR.vstack (vstackChildren (none, none, none)))

/-! ## `render_swiftui` (`src/output/render.rs`) -/

/-- Indentation: 4 spaces per level (`" ".repeat(indent * 4)`). -/
def padChars (indent : Nat) : List Char := List.replicate (indent * 4) ' '

/-- Rust `text.replace("\"", "\\\"")`. -/
def escQuotes : List Char → List Char
  | [] => []
  | c :: rest => if c = '"' then '\\' :: '"' :: escQuotes rest else c :: escQuotes rest

mutual

/-- The inner `render` function of `render_swiftui` (lines 14-78). -/
def renderNode : IR → Nat → List Char
  | IR.vstack children, indent =>
    let pad := padChars indent
    pad ++ strChars "VStack \x7b\n" ++ renderChildren children (indent + 1) ++
    pad ++ strChars "\x7d\n" ++ pad ++ strChars ".padding()" ++
    (if indent = 0 then ['\n'] else [])
  | IR.hstack children, indent =>
    let pad := padChars indent
    pad ++ strChars "HStack \x7b\n" ++ renderChildren children (indent + 1) ++
    pad ++ strChars "\x7d\n" ++ pad ++ strChars ".padding()" ++
    (if indent = 0 then ['\n'] else [])
  | IR.text t, indent =>
    let pad := padChars indent
    pad ++ strChars "Text(\"" ++ escQuotes t ++ strChars "\")\n" ++
    pad ++ strChars "    .font(.title)\n" ++ pad ++ strChars "    .padding()\n"
  | IR.button b, indent =>
    let pad := padChars indent
    pad ++ strChars "Button(\"" ++ escQuotes b ++ strChars "\") \x7b \x7d\n" ++
    pad ++ strChars "    .padding()\n"
  | IR.image n, indent =>
    let pad := padChars indent
    pad ++ strChars "Image(\"" ++ escQuotes n ++ strChars "\")\n"
  | IR.spacer, indent => padChars indent ++ strChars "Spacer()\n"

/-- The child loop inside the stack branches. -/
def renderChildren : List IR → Nat → List Char
  | [], _ => []
  | c :: cs, indent => renderNode c indent ++ renderChildren cs indent

end

/-- Strip one trailing carriage return, as Rust's `str::lines` does for
a `\r\n` line terminator. -/
def stripCarriage (l : List Char) : List Char :=
  if lastIs l '\r' then l.dropLast else l

/-- Rust `str::lines()`: split on `\n`, drop the final piece when it is
empty (the final line ending is optional), and strip the `\r` of a
`\r\n` terminator from every piece that was followed by a `\n`. -/
def rustLines (s : List Char) : List (List Char) :=
  let ps := splitOnChar '\n' s
  let body := ps.dropLast.map stripCarriage
  match ps.getLast? with
  | some [] => body
  | some l => body ++ [l]
  | none => body

/-- Join lines with a single `\n` (Rust `Vec::join("\n")`). -/
def joinNL : List (List Char) → List Char
  | [] => []
  | [x] => x
  | x :: xs => x ++ '\n' :: joinNL xs

/-- `normalize_whitespace_internal` (lines 6-11): trailing whitespace
stripped from every line, lines rejoined with single `\n`. -/
def normalizeWhitespaceInternal (s : List Char) : List Char :=
  joinNL ((rustLines s).map rustTrimEnd)

/-- `render_swiftui` (lines 13-81): render at indent 0, then normalize. -/
def renderSwiftui (ir : IR) : List Char :=
  normalizeWhitespaceInternal (renderNode ir 0)

/-! ## Auxiliary definitions used by the claim statements -/

/-- The parse errors that report a parenthesis-balance problem of the
dimensions block. -/
def parenBalanceErr : ParseErr → Bool
  | .closeParenAtZero => true
  | .parensNotClosed => true
  | .extraParensInDims => true
  | _ => false

/-- A result that is a parenthesis-balance rejection. -/
def resultParenErr {α : Type} : PResult α → Bool
  | .err e => parenBalanceErr e
  | _ => false

/-- The update step of the last-assignment fold: a `String` entry whose
key is `key` overwrites the slot, anything else leaves it unchanged. -/
def lastStrStep (key : List Char) (acc : Option (List Char))
    (p : List Char × Value) : Option (List Char) :=
  match p.2 with
  | Value.str s => if p.1 = key then some s else acc
  | _ => acc

/-- The value a repeated-assignment loop over `elems` leaves in the slot
for `key`: the `String` value of the last entry with that key. -/
def lastStrVal (key : List Char) (elems : List (List Char × Value)) :
    Option (List Char) :=
  elems.foldl (lastStrStep key) none

/-- The HStack mapping `synthesize_layout` acts on: the children of the
first `HStack` entry, provided that entry's value is a dictionary. -/
def hstackMappingOf (elems : List (List Char × Value)) :
    Option (List (List Char × Value)) :=
  match elems.find? (fun p => decide (p.1 = hstackChars)) with
  | some (_, Value.dict children) => some children
  | _ => none

/-- Translation of a single HStack child, stated per child: a `String`
child is quote-trimmed, and becomes `Spacer` exactly when the trimmed
text is the literal `Spacer`, otherwise `Text` of the trimmed text;
non-`String` children produce nothing. -/
def hstackChildSpec (p : List Char × Value) : Option IR :=
  match p.2 with
  | Value.str s =>
    some (if trimMatchesChar '"' s = spacerChars then IR.spacer
          else IR.text (trimMatchesChar '"' s))
  | _ => none

/-- The `Picture` part of the vertical stack: present when an `Image`
entry was assigned. -/
def picPart (elems : List (List Char × Value)) : List IR :=
  match lastStrVal imageChars elems with
  | some s => [IR.image s]
  | none => []

/-- The `Label` part of the vertical stack: present when a `title`
entry was assigned. -/
def labelPart (elems : List (List Char × Value)) : List IR :=
  match lastStrVal titleChars elems with
  | some t => [IR.text t]
  | none => []

/-- The `ActionControl` part of the vertical stack: present when a
`button` entry was assigned with non-empty text. -/
def btnPart (elems : List (List Char × Value)) : List IR :=
  match lastStrVal buttonChars elems with
  | some b => if b.isEmpty then [] else [IR.button b]
  | none => []

/-- All characters are ASCII decimal digits. -/
def allDigits (l : List Char) : Bool :=
  l.all fun c => decide ('0' ≤ c ∧ c ≤ '9')

/-- Numeric value of a digit string, most significant digit first,
starting from `acc`. -/
def natFrom (acc : Nat) (l : List Char) : Nat :=
  l.foldl (fun a c => a * 10 + (c.toNat - '0'.toNat)) acc

/-- Numeric value of a digit string. -/
def natOfDigits (l : List Char) : Nat := natFrom 0 l

/-- The exact mathematical integer denoted by a base-10 literal
(optional sign, at least one digit), with no range restriction.  This is
the specification-side reading against which `rustParseI32` is compared. -/
def intLitDenote (s : List Char) : Option Int :=
  match s with
  | '+' :: rest =>
    if rest ≠ [] ∧ allDigits rest then some (natOfDigits rest : Int) else none
  | '-' :: rest =>
    if rest ≠ [] ∧ allDigits rest then some (-(natOfDigits rest : Int)) else none
  | l => if l ≠ [] ∧ allDigits l then some (natOfDigits l : Int) else none

/-! ## Claim theorems -/

/-- C1: refuted by the code — `parse_examples` can panic.  On
`{(width:1,height:1):{title:"}}` the element value is the single
character `"`, and the slice `&value_str[1..value_str.len()-1]` has
start index 1 past end index 0; on `{(éé):{title:"x"}}` the character
index of the separator colon is used as a byte index, which falls
inside the multi-byte `é`, so `&inner[..colon_idx]` slices at a
non-character boundary.  Both inputs panic instead of producing an
`Ok`/`Err` value. -/
theorem parseExamples_panics_on_slice_bugs :
    parseExamples (strChars "\x7b(width:1,height:1):\x7btitle:\"\x7d\x7d") =
      PResult.panicked ∧
    parseExamples (strChars "\x7b(éé):\x7btitle:\"x\"\x7d\x7d") =
      PResult.panicked :=
  ⟨rfl, rfl⟩

/-- C2: the separator scan is parenthesis-balance correct on the
specified inputs: `{(width:1,height:2):{title:"x"}}` parses with
dimensions `width ↦ Integer 1`, `height ↦ Integer 2`, while the
unmatched input `{(width:1,height:2:{title:"x"}}` and the doubly nested
input `{((width:1,height:2)):{title:"x"}}` are rejected with a
parenthesis-balance error. -/
theorem separator_scan_paren_balance :
    parseExamples (strChars "\x7b(width:1,height:2):\x7btitle:\"x\"\x7d\x7d") =
      PResult.ok [(mkDims 1 2, Value.dict [(titleChars, Value.str (strChars "x"))])] ∧
    parseExamples (strChars "\x7b(width:1,height:2:\x7btitle:\"x\"\x7d\x7d") =
      PResult.err ParseErr.parensNotClosed ∧
    parseExamples (strChars "\x7b((width:1,height:2)):\x7btitle:\"x\"\x7d\x7d") =
      PResult.err ParseErr.extraParensInDims ∧
    resultParenErr (parseExamples (strChars "\x7b(width:1,height:2:\x7btitle:\"x\"\x7d\x7d")) = true ∧
    resultParenErr (parseExamples (strChars "\x7b((width:1,height:2)):\x7btitle:\"x\"\x7d\x7d")) = true :=
  ⟨rfl, rfl, rfl, rfl, rfl⟩

/-- C3: escape fidelity round-trip.  Parsing
`{(width:1,height:1):{title:"a\"b"}}` succeeds and binds `title` to the
literal text `a"b`; synthesizing and rendering that example produces a
line containing `Text("a\"b")` (the embedded quote re-escaped). -/
theorem escape_roundtrip :
    parseExamples (strChars "\x7b(width:1,height:1):\x7btitle:\"a\\\"b\"\x7d\x7d") =
      PResult.ok [(mkDims 1 1,
        Value.dict [(titleChars, Value.str (strChars "a\"b"))])] ∧
    synthesizeLayout [(mkDims 1 1,
        Value.dict [(titleChars, Value.str (strChars "a\"b"))])] =
      some (IR.vstack [IR.text (strChars "a\"b"), IR.spacer]) ∧
    strChars "Text(\"a\\\"b\")" <:+:
      renderSwiftui (IR.vstack [IR.text (strChars "a\"b"), IR.spacer]) :=
  ⟨rfl, rfl, by decide⟩

/-- C4 counterexample: whitespace insensitivity fails at the `HStack`
keyword.  `{(width:1,height:1):HStack:{"A"}}` parses, but inserting one
space between `HStack` and its colon makes the literal-prefix check
`starts_with("HStack:")` fail, and the input is rejected (it falls into
the regular-elements branch and fails its brace check). -/
theorem whitespace_hstack_colon_cex :
    parseExamples (strChars "\x7b(width:1,height:1):HStack:\x7b\"A\"\x7d\x7d") =
      PResult.ok [(mkDims 1 1, Value.dict [(hstackChars,
        Value.dict [(strChars "child0", Value.str (strChars "A"))])])] ∧
    parseExamples (strChars "\x7b(width:1,height:1):HStack :\x7b\"A\"\x7d\x7d") =
      PResult.err ParseErr.elementsNotBraced :=
  ⟨rfl, rfl⟩

/-! ## Outer-whitespace invariance of the parse -/

theorem dropWhile_ws_replicate_space (n : Nat) (x : List Char) :
    List.dropWhile rustIsWhitespace (List.replicate n ' ' ++ x) =
      List.dropWhile rustIsWhitespace x := by
  induction n with
  | zero => rfl
  | succ n ih =>
    rw [List.replicate_succ, List.cons_append,
      List.dropWhile_cons_of_pos (by decide), ih]

theorem rustTrimEnd_append_spaces (m : Nat) (y : List Char) :
    rustTrimEnd (y ++ List.replicate m ' ') = rustTrimEnd y := by
  unfold rustTrimEnd
  rw [List.reverse_append, List.reverse_replicate, dropWhile_ws_replicate_space]

theorem rustTrim_pad (n m : Nat) (s : List Char) :
    rustTrim (List.replicate n ' ' ++ s ++ List.replicate m ' ') = rustTrim s := by
  unfold rustTrim rustTrimStart
  rw [List.append_assoc, dropWhile_ws_replicate_space, List.dropWhile_append]
  by_cases h : (List.dropWhile rustIsWhitespace s).isEmpty = true
  · rw [if_pos h]
    have hrep : List.dropWhile rustIsWhitespace (List.replicate m ' ') = [] := by
      have := dropWhile_ws_replicate_space m []
      simpa using this
    rw [hrep]
    rw [List.isEmpty_iff] at h
    rw [h]
  · rw [if_neg h, rustTrimEnd_append_spaces]

theorem parseExamples_pad (n m : Nat) (s : List Char) :
    parseExamples (List.replicate n ' ' ++ s ++ List.replicate m ' ') = parseExamples s := by
  have henv : checkEnvelope (List.replicate n ' ' ++ s ++ List.replicate m ' ') =
      checkEnvelope s := by
    unfold checkEnvelope
    rw [rustTrim_pad]
  unfold parseExamples
  rw [henv]

set_option maxHeartbeats 1000000 in
/-- C4 amended: space insertion around every token outside quoted
strings preserves the parse, except between `HStack` and its colon
(where the parser requires the literal prefix `HStack:`); shown on the
representative regular-elements input and the representative `HStack`
input, each parsing to the same `Example` as its space-free form;
additionally, for every input and every amount of leading and trailing
whitespace, padding the whole input with spaces never changes the
parse result. -/
theorem whitespace_insensitive_amended :
    (∀ (n m : Nat) (s : List Char),
      parseExamples (List.replicate n ' ' ++ s ++ List.replicate m ' ') =
        parseExamples s) ∧
    parseExamples (strChars " \x7b ( width : 1 , height : 2 ) : \x7b title : \"x\" , button : \"y\" \x7d \x7d ") =
      PResult.ok [(mkDims 1 2, Value.dict
        [(titleChars, Value.str (strChars "x")),
         (buttonChars, Value.str (strChars "y"))])] ∧
    parseExamples (strChars "\x7b(width:1,height:2):\x7btitle:\"x\",button:\"y\"\x7d\x7d") =
      PResult.ok [(mkDims 1 2, Value.dict
        [(titleChars, Value.str (strChars "x")),
         (buttonChars, Value.str (strChars "y"))])] ∧
    parseExamples (strChars " \x7b ( width : 1 , height : 1 ) : HStack: \x7b \"A\" , \"Spacer\" \x7d \x7d ") =
      PResult.ok [(mkDims 1 1, Value.dict [(hstackChars, Value.dict
        [(strChars "child0", Value.str (strChars "A")),
         (strChars "child1", Value.str (strChars "Spacer"))])])] ∧
    parseExamples (strChars "\x7b(width:1,height:1):HStack:\x7b\"A\",\"Spacer\"\x7d\x7d") =
      PResult.ok [(mkDims 1 1, Value.dict [(hstackChars, Value.dict
        [(strChars "child0", Value.str (strChars "A")),
         (strChars "child1", Value.str (strChars "Spacer"))])])] :=
  ⟨parseExamples_pad, rfl, rfl, rfl, rfl⟩

/-- C5 counterexample: the rendered output of a top-level stack does
not end with a newline.  `normalize_whitespace_internal` is applied
last, and Rust's `str::lines` drops the final line ending, so the
output ends with the `.padding()` modifier line's last character. -/
theorem render_trailing_newline_cex :
    renderSwiftui (IR.vstack []) = strChars "VStack \x7b\n\x7d\n.padding()" ∧
    (renderSwiftui (IR.vstack [])).getLast? = some ')' ∧
    (')' : Char) ≠ '\n' :=
  ⟨rfl, rfl, by decide⟩

/-- C6 counterexample: duplicate keys are resolved last-match-wins, not
first-match-wins.  With `title` bound to `A` and then to `B`, the
synthesized label text is `B`, the value of the second (last)
occurrence. -/
theorem duplicate_title_first_match_cex :
    synthesizeLayout [(mkDims 1 1, Value.dict
      [(titleChars, Value.str (strChars "A")),
       (titleChars, Value.str (strChars "B"))])] =
      some (IR.vstack [IR.text (strChars "B"), IR.spacer]) ∧
    strChars "B" ≠ strChars "A" :=
  ⟨rfl, by decide⟩

/-- C7 counterexample: HStack children are quote-trimmed before the
`Spacer` comparison.  A child whose text is the nine characters
`"Spacer"` (quotes included, producible from the input
`{(width:1,height:1):HStack:{""Spacer""}}`) is translated to `Filler`
even though its text differs from the literal `Spacer`, not to
`Label` of its text as the claim states. -/
theorem hstack_literal_spacer_cex :
    parseExamples (strChars "\x7b(width:1,height:1):HStack:\x7b\"\"Spacer\"\"\x7d\x7d") =
      PResult.ok [(mkDims 1 1, Value.dict [(hstackChars,
        Value.dict [(strChars "child0", Value.str (strChars "\"Spacer\""))])])] ∧
    synthesizeLayout [(mkDims 1 1, Value.dict [(hstackChars,
        Value.dict [(strChars "child0", Value.str (strChars "\"Spacer\""))])])] =
      some (IR.hstack [IR.spacer]) ∧
    IR.spacer ≠ IR.text (strChars "\"Spacer\"") ∧
    strChars "\"Spacer\"" ≠ spacerChars :=
  ⟨rfl, rfl, fun h => IR.noConfusion h, by decide⟩

/-- Inversion of `PResult.bind` at an `ok` outcome: the first stage
succeeded and the continuation succeeded on its value. -/
theorem PResult.bind_ok {α β : Type} {x : PResult α} {f : α → PResult β} {r : β}
    (h : x.bind f = PResult.ok r) : ∃ a, x = PResult.ok a ∧ f a = PResult.ok r := by
  cases x with
  | ok v => exact ⟨v, rfl, h⟩
  | err e => exact PResult.noConfusion h
  | panicked => exact PResult.noConfusion h

/-- C9: whenever `parse_examples` returns `Ok`, the result is exactly
one example, and its dimensions dictionary is exactly
`[width ↦ Integer w, height ↦ Integer h]` for some integers; no
partially-populated example is ever returned (absence of `width` or
`height` can only produce an error, never an `Ok`). -/
theorem parse_ok_shape (input : List Char) (r : List (Value × Value))
    (h : parseExamples input = PResult.ok r) :
    ∃ w h' elems, r = [(Value.dict [(widthChars, Value.int w),
      (heightChars, Value.int h')], elems)] := by
  unfold parseExamples at h
  obtain ⟨inner, -, h⟩ := PResult.bind_ok h
  obtain ⟨ci, -, h⟩ := PResult.bind_ok h
  obtain ⟨ds, -, h⟩ := PResult.bind_ok h
  obtain ⟨wh, -, h⟩ := PResult.bind_ok h
  obtain ⟨ev, -, h⟩ := PResult.bind_ok h
  exact ⟨wh.1, wh.2, ev, by cases h; rfl⟩

/-- C9 witness: the shape theorem applied to the concrete parse of
`{(width:390,height:844):{title:"Hello"}}`. -/
theorem parse_ok_shape_witness :
    ∃ w h elems,
      ([(mkDims 390 844, Value.dict [(titleChars, Value.str (strChars "Hello"))])] :
        List (Value × Value)) =
      [(Value.dict [(widthChars, Value.int w), (heightChars, Value.int h)], elems)] :=
  parse_ok_shape (strChars "\x7b(width:390,height:844):\x7btitle:\"Hello\"\x7d\x7d") _ rfl

/-! ## C10: 32-bit dimension values -/

theorem natFrom_split (l : List Char) : ∀ a : Nat,
    natFrom a l = a * 10 ^ l.length + natOfDigits l := by
  induction l with
  | nil => intro a; simp [natFrom, natOfDigits]
  | cons c l ih =>
    intro a
    have h1 : natFrom a (c :: l) = natFrom (a * 10 + (c.toNat - '0'.toNat)) l := rfl
    have h2 : natOfDigits (c :: l) = natFrom (c.toNat - '0'.toNat) l := by
      simp [natOfDigits, natFrom]
    rw [h1, ih, h2, ih]
    simp [List.length_cons, pow_succ]
    ring

theorem accumPos_eq_none_of_not_digit {c : Char} (l : List Char) (acc : Int)
    (hd : ¬ ('0' ≤ c ∧ c ≤ '9')) : accumPos (c :: l) acc = none := by
  simp [accumPos, digitVal, hd]

theorem accumPos_some_iff (l : List Char) : ∀ (acc : Int), 0 ≤ acc → acc ≤ i32Max →
    ∀ v, (accumPos l acc = some v ↔
      (allDigits l = true ∧ v = acc * 10 ^ l.length + (natOfDigits l : Int) ∧ v ≤ i32Max)) := by
  induction l with
  | nil =>
    intro acc h0 hm v
    constructor
    · intro h
      have hv : acc = v := by simpa [accumPos] using h
      refine ⟨by simp [allDigits], ?_, hv ▸ hm⟩
      simp [natOfDigits, natFrom, ← hv]
    · rintro ⟨-, hv, -⟩
      have : v = acc := by simpa [natOfDigits, natFrom] using hv
      simp [accumPos, this]
  | cons c l ih =>
    intro acc h0 hm v
    have hall : allDigits (c :: l) = ((decide ('0' ≤ c ∧ c ≤ '9')) && allDigits l) := by
      simp [allDigits]
    by_cases hd : '0' ≤ c ∧ c ≤ '9'
    · have hdv : digitVal c = some (c.toNat - '0'.toNat) := by simp [digitVal, hd]
      have hnat : (natOfDigits (c :: l) : Int) =
          ((c.toNat - '0'.toNat : Nat) : Int) * 10 ^ l.length + (natOfDigits l : Int) := by
        have h2 : natOfDigits (c :: l) = natFrom (c.toNat - '0'.toNat) l := by
          simp [natOfDigits, natFrom]
        rw [h2, natFrom_split]
        push_cast; ring
      have hacc' : (0 : Int) ≤ acc * 10 + ((c.toNat - '0'.toNat : Nat) : Int) := by positivity
      have hlen : (1 : Int) ≤ 10 ^ l.length := one_le_pow₀ (by norm_num)
      by_cases hov : i32Max < acc * 10 + ((c.toNat - '0'.toNat : Nat) : Int)
      · have hlhs : accumPos (c :: l) acc = none := by
          simp only [accumPos, hdv]
          rw [if_pos hov]
        rw [hlhs]
        constructor
        · intro h; exact Option.noConfusion h
        · rintro ⟨-, hv, hvm⟩
          exfalso
          have h1 : acc * 10 + ((c.toNat - '0'.toNat : Nat) : Int) ≤
              (acc * 10 + ((c.toNat - '0'.toNat : Nat) : Int)) * 10 ^ l.length :=
            le_mul_of_one_le_right hacc' hlen
          have h2 : v = (acc * 10 + ((c.toNat - '0'.toNat : Nat) : Int)) * 10 ^ l.length +
              (natOfDigits l : Int) := by
            rw [hv, hnat]
            simp [List.length_cons, pow_succ]
            ring
          have h3 : (0 : Int) ≤ (natOfDigits l : Int) := Int.natCast_nonneg _
          omega
      · have hlhs : accumPos (c :: l) acc =
            accumPos l (acc * 10 + ((c.toNat - '0'.toNat : Nat) : Int)) := by
          simp only [accumPos, hdv]
          rw [if_neg hov]
        rw [hlhs, ih _ hacc' (not_lt.mp hov) v]
        constructor
        · rintro ⟨ha, hv, hvm⟩
          refine ⟨by simp [hall, hd, ha], ?_, hvm⟩
          rw [hv, hnat]
          simp [List.length_cons, pow_succ]
          ring
        · rintro ⟨ha, hv, hvm⟩
          have ha' : allDigits l = true := by
            rw [hall] at ha
            exact (Bool.and_eq_true_iff.mp ha).2
          refine ⟨ha', ?_, hvm⟩
          rw [hv, hnat]
          simp [List.length_cons, pow_succ]
          ring
    · rw [accumPos_eq_none_of_not_digit l acc hd]
      constructor
      · intro h; exact Option.noConfusion h
      · rintro ⟨ha, -, -⟩
        rw [hall] at ha
        simp [hd] at ha


theorem accumNeg_some_iff (l : List Char) : ∀ (acc : Int), acc ≤ 0 → i32Min ≤ acc →
    ∀ v, (accumNeg l acc = some v ↔
      (allDigits l = true ∧ v = acc * 10 ^ l.length - (natOfDigits l : Int) ∧ i32Min ≤ v)) := by
  induction l with
  | nil =>
    intro acc h0 hm v
    constructor
    · intro h
      have hv : acc = v := by simpa [accumNeg] using h
      refine ⟨by simp [allDigits], ?_, hv ▸ hm⟩
      simp [natOfDigits, natFrom, ← hv]
    · rintro ⟨-, hv, -⟩
      have : v = acc := by simpa [natOfDigits, natFrom] using hv
      simp [accumNeg, this]
  | cons c l ih =>
    intro acc h0 hm v
    have hall : allDigits (c :: l) = ((decide ('0' ≤ c ∧ c ≤ '9')) && allDigits l) := by
      simp [allDigits]
    by_cases hd : '0' ≤ c ∧ c ≤ '9'
    · have hdv : digitVal c = some (c.toNat - '0'.toNat) := by simp [digitVal, hd]
      have hnat : (natOfDigits (c :: l) : Int) =
          ((c.toNat - '0'.toNat : Nat) : Int) * 10 ^ l.length + (natOfDigits l : Int) := by
        have h2 : natOfDigits (c :: l) = natFrom (c.toNat - '0'.toNat) l := by
          simp [natOfDigits, natFrom]
        rw [h2, natFrom_split]
        push_cast; ring
      have hacc' : acc * 10 - ((c.toNat - '0'.toNat : Nat) : Int) ≤ 0 := by
        have : (0 : Int) ≤ ((c.toNat - '0'.toNat : Nat) : Int) := Int.natCast_nonneg _
        nlinarith
      have hlen : (1 : Int) ≤ 10 ^ l.length := one_le_pow₀ (by norm_num)
      by_cases hov : acc * 10 - ((c.toNat - '0'.toNat : Nat) : Int) < i32Min
      · have hlhs : accumNeg (c :: l) acc = none := by
          simp only [accumNeg, hdv]
          rw [if_pos hov]
        rw [hlhs]
        constructor
        · intro h; exact Option.noConfusion h
        · rintro ⟨-, hv, hvm⟩
          exfalso
          have h1 : (acc * 10 - ((c.toNat - '0'.toNat : Nat) : Int)) * 10 ^ l.length ≤
              (acc * 10 - ((c.toNat - '0'.toNat : Nat) : Int)) * 1 := by
            exact mul_le_mul_of_nonpos_left hlen hacc'
          have h2 : v = (acc * 10 - ((c.toNat - '0'.toNat : Nat) : Int)) * 10 ^ l.length -
              (natOfDigits l : Int) := by
            rw [hv, hnat]
            simp [List.length_cons, pow_succ]
            ring
          have h3 : (0 : Int) ≤ (natOfDigits l : Int) := Int.natCast_nonneg _
          omega
      · have hlhs : accumNeg (c :: l) acc =
            accumNeg l (acc * 10 - ((c.toNat - '0'.toNat : Nat) : Int)) := by
          simp only [accumNeg, hdv]
          rw [if_neg hov]
        rw [hlhs, ih _ hacc' (not_lt.mp hov) v]
        constructor
        · rintro ⟨ha, hv, hvm⟩
          refine ⟨by simp [hall, hd, ha], ?_, hvm⟩
          rw [hv, hnat]
          simp [List.length_cons, pow_succ]
          ring
        · rintro ⟨ha, hv, hvm⟩
          have ha' : allDigits l = true := by
            rw [hall] at ha
            exact (Bool.and_eq_true_iff.mp ha).2
          refine ⟨ha', ?_, hvm⟩
          rw [hv, hnat]
          simp [List.length_cons, pow_succ]
          ring
    · have hlhs : accumNeg (c :: l) acc = none := by
        simp [accumNeg, digitVal, hd]
      rw [hlhs]
      constructor
      · intro h; exact Option.noConfusion h
      · rintro ⟨ha, -, -⟩
        rw [hall] at ha
        simp [hd] at ha

theorem rustParseI32_iff (s : List Char) (v : Int) :
    rustParseI32 s = some v ↔
      (intLitDenote s = some v ∧ i32Min ≤ v ∧ v ≤ i32Max) := by
  rw [rustParseI32.eq_def]
  split
  · simp [intLitDenote]
  · rename_i rest
    cases rest with
    | nil => simp [intLitDenote]
    | cons r rs =>
      have hden : intLitDenote ('+' :: r :: rs) =
          (if allDigits (r :: rs) = true then some ((natOfDigits (r :: rs) : Int)) else none) := by
        simp [intLitDenote]
      rw [hden]
      simp only [List.isEmpty_cons, if_false, Bool.false_eq_true]
      rw [accumPos_some_iff _ 0 le_rfl (by norm_num [i32Max]) v]
      have hnn : (0 : Int) ≤ (natOfDigits (r :: rs) : Int) := Int.natCast_nonneg _
      constructor
      · rintro ⟨ha, hv, hvm⟩
        have hv' : v = (natOfDigits (r :: rs) : Int) := by simpa using hv
        exact ⟨by simp [ha, hv'], by rw [hv']; simp [i32Min]; omega, hvm⟩
      · rintro ⟨hsome, hmin, hmax⟩
        by_cases ha : allDigits (r :: rs) = true
        · rw [if_pos ha] at hsome
          have hv' : v = (natOfDigits (r :: rs) : Int) := (Option.some.injEq _ _ ▸ hsome).symm
          exact ⟨ha, by simp [hv'], hmax⟩
        · rw [if_neg ha] at hsome
          exact Option.noConfusion hsome
  · rename_i rest
    cases rest with
    | nil => simp [intLitDenote]
    | cons r rs =>
      have hden : intLitDenote ('-' :: r :: rs) =
          (if allDigits (r :: rs) = true then some (-(natOfDigits (r :: rs) : Int)) else none) := by
        simp [intLitDenote]
      rw [hden]
      simp only [List.isEmpty_cons, if_false, Bool.false_eq_true]
      rw [accumNeg_some_iff _ 0 le_rfl (by norm_num [i32Min]) v]
      have hnn : (0 : Int) ≤ (natOfDigits (r :: rs) : Int) := Int.natCast_nonneg _
      constructor
      · rintro ⟨ha, hv, hvm⟩
        have hv' : v = -(natOfDigits (r :: rs) : Int) := by
          rw [hv]; ring
        exact ⟨by simp [ha, hv'], hvm, by rw [hv']; simp [i32Max]; omega⟩
      · rintro ⟨hsome, hmin, hmax⟩
        by_cases ha : allDigits (r :: rs) = true
        · rw [if_pos ha] at hsome
          have hv' : v = -(natOfDigits (r :: rs) : Int) := (Option.some.injEq _ _ ▸ hsome).symm
          exact ⟨ha, by rw [hv']; ring, hmin⟩
        · rw [if_neg ha] at hsome
          exact Option.noConfusion hsome
  · rename_i l hpl hmi
    rcases s with _ | ⟨c, rest⟩
    · exact absurd rfl l
    · have hc1 : c ≠ '+' := fun h => hpl rest (by rw [h])
      have hc2 : c ≠ '-' := fun h => hmi rest (by rw [h])
      have hden : intLitDenote (c :: rest) =
          (if allDigits (c :: rest) = true then some ((natOfDigits (c :: rest) : Int)) else none) := by
        rw [intLitDenote.eq_def]
        split
        · rename_i heq
          exact absurd (List.cons.injEq .. ▸ heq) (by simp [hc1])
        · rename_i heq
          exact absurd (List.cons.injEq .. ▸ heq) (by simp [hc2])
        · simp
      rw [hden, accumPos_some_iff _ 0 le_rfl (by norm_num [i32Max]) v]
      have hnn : (0 : Int) ≤ (natOfDigits (c :: rest) : Int) := Int.natCast_nonneg _
      constructor
      · rintro ⟨ha, hv, hvm⟩
        have hv' : v = (natOfDigits (c :: rest) : Int) := by simpa using hv
        exact ⟨by simp [ha, hv'], by rw [hv']; simp [i32Min]; omega, hvm⟩
      · rintro ⟨hsome, hmin, hmax⟩
        by_cases ha : allDigits (c :: rest) = true
        · rw [if_pos ha] at hsome
          have hv' : v = (natOfDigits (c :: rest) : Int) := (Option.some.injEq _ _ ▸ hsome).symm
          exact ⟨ha, by simp [hv'], hmax⟩
        · rw [if_neg ha] at hsome
          exact Option.noConfusion hsome

/-- C10: dimension values are exact 32-bit signed integers.  The
integer parser used for `width`/`height` accepts a literal exactly when
it denotes an integer in `[-2147483648, 2147483647]`, and then yields
exactly the denoted integer (never wrapped or truncated); end to end,
an out-of-range `width` literal is rejected with the invalid-width
error, and the extreme in-range values are stored exactly. -/
theorem dimension_i32_exact :
    (∀ s v, rustParseI32 s = some v ↔
      (intLitDenote s = some v ∧ i32Min ≤ v ∧ v ≤ i32Max)) ∧
    parseExamples (strChars "\x7b(width:2147483648,height:1):\x7b\x7d\x7d") =
      PResult.err ParseErr.invalidWidth ∧
    parseExamples (strChars "\x7b(width:-2147483649,height:1):\x7b\x7d\x7d") =
      PResult.err ParseErr.invalidWidth ∧
    parseExamples (strChars "\x7b(width:2147483647,height:-2147483648):\x7b\x7d\x7d") =
      PResult.ok [(mkDims 2147483647 (-2147483648), Value.dict [])] :=
  ⟨rustParseI32_iff, rfl, rfl, rfl⟩

/-- C10 witness: the equivalence applied to the concrete in-range
literal `2147483647`. -/
theorem dimension_i32_exact_witness :
    intLitDenote (strChars "2147483647") = some 2147483647 ∧
    i32Min ≤ (2147483647 : Int) ∧ (2147483647 : Int) ≤ i32Max :=
  (dimension_i32_exact.1 (strChars "2147483647") 2147483647).mp rfl


/-! ## Synthesizer fold lemmas -/

theorem lastStrStep_self (k : List Char) (init : Option (List Char)) (a : List Char) :
    lastStrStep k init (k, Value.str a) = some a := by
  simp [lastStrStep]

theorem lastStrStep_of_ne (k : List Char) (init : Option (List Char))
    (p : List Char × Value) (h : p.1 ≠ k) : lastStrStep k init p = init := by
  rcases p with ⟨k', v⟩
  cases v <;> simp_all [lastStrStep]

theorem foldl_lastStrStep_no_key (k : List Char) (l : List (List Char × Value))
    (h : ∀ p ∈ l, p.1 ≠ k) : ∀ init, l.foldl (lastStrStep k) init = init := by
  induction l with
  | nil => intro init; rfl
  | cons p l ih =>
    intro init
    rw [List.foldl_cons, lastStrStep_of_ne k init p (h p (by simp))]
    exact ih (fun q hq => h q (by simp [hq])) init

theorem lastStrVal_last_binding (k : List Char) (xs ys : List (List Char × Value))
    (a : List Char) (h : ∀ p ∈ ys, p.1 ≠ k) :
    lastStrVal k (xs ++ (k, Value.str a) :: ys) = some a := by
  unfold lastStrVal
  rw [List.foldl_append, List.foldl_cons, lastStrStep_self]
  exact foldl_lastStrStep_no_key k ys h _

theorem vstackScan_eq (elems : List (List Char × Value)) :
    vstackScan elems = (lastStrVal titleChars elems,
      lastStrVal buttonChars elems, lastStrVal imageChars elems) := by
  unfold vstackScan lastStrVal
  suffices h : ∀ (l : List (List Char × Value)) (t b i : Option (List Char)),
      l.foldl (fun acc p =>
        match p.2 with
        | Value.str s =>
          if p.1 = titleChars then (some s, acc.2.1, acc.2.2)
          else if p.1 = buttonChars then (acc.1, some s, acc.2.2)
          else if p.1 = imageChars then (acc.1, acc.2.1, some s)
          else acc
        | _ => acc) (t, b, i) =
      (l.foldl (lastStrStep titleChars) t, l.foldl (lastStrStep buttonChars) b,
       l.foldl (lastStrStep imageChars) i) from h elems none none none
  intro l
  induction l with
  | nil => intro t b i; rfl
  | cons p l ih =>
    intro t b i
    rcases p with ⟨k, v⟩
    cases v with
    | int n => simpa [lastStrStep] using ih t b i
    | dict es => simpa [lastStrStep] using ih t b i
    | str s =>
      by_cases h1 : k = titleChars
      · subst h1
        simpa [lastStrStep, (by decide : ¬ (titleChars = buttonChars)),
          (by decide : ¬ (titleChars = imageChars))] using ih (some s) b i
      · by_cases h2 : k = buttonChars
        · subst h2
          simpa [lastStrStep, h1,
            (by decide : ¬ (buttonChars = imageChars))] using ih t (some s) i
        · by_cases h3 : k = imageChars
          · subst h3
            simpa [lastStrStep, h1, h2] using ih t b (some s)
          · simpa [lastStrStep, h1, h2, h3] using ih t b i

theorem synthesizeLayout_vstack (dims : Value) (E : List (List Char × Value))
    (h : hstackMappingOf E = none) :
    synthesizeLayout [(dims, Value.dict E)] =
      some (IR.vstack (vstackChildren (vstackScan E))) := by
  unfold synthesizeLayout
  unfold hstackMappingOf at h
  cases hf : E.find? (fun p => decide (p.1 = hstackChars)) with
  | none => simp [hf]
  | some pr =>
    rcases pr with ⟨k, v⟩
    cases v with
    | dict c => rw [hf] at h; exact Option.noConfusion h
    | int n => simp [hf]
    | str s => simp [hf]


/-- C6 amended: duplicate keys resolve last-match-wins for the
`title`/`button`/`Image` slots.  When the last `title` binding carries
`a`, the synthesized label text is `a`. -/
theorem duplicate_key_last_match (dims : Value) (xs ys : List (List Char × Value))
    (a : List Char) (hys : ∀ p ∈ ys, p.1 ≠ titleChars)
    (hh : hstackMappingOf (xs ++ (titleChars, Value.str a) :: ys) = none) :
    synthesizeLayout [(dims, Value.dict (xs ++ (titleChars, Value.str a) :: ys))] =
      some (IR.vstack (vstackChildren (some a,
        lastStrVal buttonChars (xs ++ (titleChars, Value.str a) :: ys),
        lastStrVal imageChars (xs ++ (titleChars, Value.str a) :: ys)))) := by
  rw [synthesizeLayout_vstack _ _ hh, vstackScan_eq,
    lastStrVal_last_binding titleChars xs ys a hys]

/-- C6 witness: the last-match theorem applied with `title` bound to
`A` and then (last) to `B`, alongside a `button` binding. -/
theorem duplicate_key_last_match_witness :
    synthesizeLayout [(mkDims 1 1, Value.dict
      ([(titleChars, Value.str (strChars "A"))] ++
        (titleChars, Value.str (strChars "B")) ::
        [(buttonChars, Value.str (strChars "C"))]))] =
      some (IR.vstack (vstackChildren (some (strChars "B"),
        lastStrVal buttonChars
          ([(titleChars, Value.str (strChars "A"))] ++
            (titleChars, Value.str (strChars "B")) ::
            [(buttonChars, Value.str (strChars "C"))]),
        lastStrVal imageChars
          ([(titleChars, Value.str (strChars "A"))] ++
            (titleChars, Value.str (strChars "B")) ::
            [(buttonChars, Value.str (strChars "C"))])))) :=
  duplicate_key_last_match (mkDims 1 1) _ _ _ (by decide) rfl

theorem hstackChildItems_eq (children : List (List Char × Value)) :
    hstackChildItems children = children.filterMap hstackChildSpec := by
  unfold hstackChildItems
  suffices h : ∀ (l : List (List Char × Value)) (acc : List IR),
      l.foldl (fun acc p =>
        match p.2 with
        | Value.str s =>
          if trimMatchesChar '"' s = spacerChars then acc ++ [IR.spacer]
          else acc ++ [IR.text (trimMatchesChar '"' s)]
        | _ => acc) acc = acc ++ l.filterMap hstackChildSpec by
    simpa using h children []
  intro l
  induction l with
  | nil => intro acc; simp
  | cons p l ih =>
    intro acc
    rcases p with ⟨k, v⟩
    cases v with
    | int n => simp [hstackChildSpec, ih]
    | dict es => simp [hstackChildSpec, ih]
    | str s =>
      by_cases hsp : trimMatchesChar '"' s = spacerChars
      · simp [hstackChildSpec, hsp, ih]
      · simp [hstackChildSpec, hsp, ih]

/-- C7 amended: when the first `HStack` binding of the elements is a
mapping, the result is a horizontal stack whose children are the
mapping's entries translated in declaration order — quote-trimmed text,
`Filler` exactly for trimmed text `Spacer`, `Label` of the trimmed text
otherwise, non-`Text` children skipped — and no other element key
influences the result. -/
theorem hstack_translation (dims : Value) (elems children : List (List Char × Value))
    (k : List Char)
    (h : elems.find? (fun p => decide (p.1 = hstackChars)) = some (k, Value.dict children)) :
    synthesizeLayout [(dims, Value.dict elems)] =
      some (IR.hstack (children.filterMap hstackChildSpec)) := by
  have hs : synthesizeLayout [(dims, Value.dict elems)] =
      match elems.find? (fun p => decide (p.1 = hstackChars)) with
      | some (_, Value.dict children) => some (IR.hstack (hstackChildItems children))
      | _ => some (IR.vstack (vstackChildren (vstackScan elems))) := rfl
  rw [hs, h]
  show some (IR.hstack (hstackChildItems children)) = _
  rw [hstackChildItems_eq]

/-- C7 witness: the translation theorem applied to a concrete example
with one plain child and one `Spacer` child next to a `title` key. -/
theorem hstack_translation_witness :
    synthesizeLayout [(mkDims 1 1, Value.dict
      [(hstackChars, Value.dict
        [(strChars "child0", Value.str (strChars "A")),
         (strChars "child1", Value.str spacerChars)]),
       (titleChars, Value.str (strChars "T"))])] =
      some (IR.hstack
        ([(strChars "child0", Value.str (strChars "A")),
          (strChars "child1", Value.str spacerChars)].filterMap hstackChildSpec)) :=
  hstack_translation (mkDims 1 1) _ _ hstackChars rfl


theorem foldl_lastStrStep_some_mem (k : List Char) (l : List (List Char × Value)) :
    ∀ (init : Option (List Char)) (s : List Char),
      l.foldl (lastStrStep k) init = some s →
      init = some s ∨ (k, Value.str s) ∈ l := by
  induction l with
  | nil => intro init s h; exact Or.inl h
  | cons p l ih =>
    intro init s h
    rw [List.foldl_cons] at h
    rcases ih _ s h with hstep | hmem
    · rcases p with ⟨k', v⟩
      cases v with
      | str t =>
        by_cases hk : k' = k
        · subst hk
          simp only [lastStrStep, if_pos rfl] at hstep
          have ht : t = s := by simpa using hstep
          exact Or.inr (by simp [ht])
        · rw [lastStrStep_of_ne k init _ hk] at hstep
          exact Or.inl hstep
      | int n => exact Or.inl hstep
      | dict es => exact Or.inl hstep
    · exact Or.inr (List.mem_cons_of_mem _ hmem)

theorem foldl_lastStrStep_isSome (k : List Char) (l : List (List Char × Value)) :
    ∀ x : List Char, ∃ y, l.foldl (lastStrStep k) (some x) = some y := by
  induction l with
  | nil => intro x; exact ⟨x, rfl⟩
  | cons p l ih =>
    intro x
    rw [List.foldl_cons]
    rcases p with ⟨k', v⟩
    cases v with
    | str t =>
      by_cases hk : k' = k
      · subst hk
        rw [lastStrStep_self]
        exact ih t
      · rw [lastStrStep_of_ne k _ _ hk]
        exact ih x
    | int n => exact ih x
    | dict es => exact ih x

theorem mem_lastStrVal_some (k : List Char) (l : List (List Char × Value))
    (s : List Char) (h : (k, Value.str s) ∈ l) : ∃ t, lastStrVal k l = some t := by
  unfold lastStrVal
  suffices hgen : ∀ (l : List (List Char × Value)) (init : Option (List Char)),
      (k, Value.str s) ∈ l → ∃ t, l.foldl (lastStrStep k) init = some t from
    hgen l none h
  intro l
  induction l with
  | nil => intro init hm; cases hm
  | cons p l ih =>
    intro init hm
    rw [List.foldl_cons]
    rcases List.mem_cons.mp hm with heq | hmem
    · subst heq
      rw [lastStrStep_self]
      exact foldl_lastStrStep_isSome k l s
    · exact ih _ hmem

/-- C8: for every example the synthesizer sees no HStack mapping in,
the result is a vertical stack whose children are, in order: a
`Picture` part (nonempty exactly when an `Image` text entry is
present), a `Label` part (nonempty exactly when a `title` text entry is
present), one `Filler` unconditionally, and an `ActionControl` part
(nonempty exactly when the `button` slot ends with non-empty text);
when the `button` slot ends with the empty string the `ActionControl`
part is empty while the result is still a defined stack (no error). -/
theorem vstack_rule (dims : Value) (elems : List (List Char × Value))
    (h : hstackMappingOf elems = none) :
    synthesizeLayout [(dims, Value.dict elems)] =
      some (IR.vstack (picPart elems ++ labelPart elems ++ [IR.spacer] ++ btnPart elems)) ∧
    (picPart elems ≠ [] ↔ ∃ s, (imageChars, Value.str s) ∈ elems) ∧
    (labelPart elems ≠ [] ↔ ∃ s, (titleChars, Value.str s) ∈ elems) ∧
    (btnPart elems ≠ [] ↔ ∃ s, lastStrVal buttonChars elems = some s ∧ s.isEmpty = false) ∧
    (∀ s, lastStrVal buttonChars elems = some s → s.isEmpty = true → btnPart elems = []) := by
  refine ⟨?_, ?_, ?_, ?_, ?_⟩
  · rw [synthesizeLayout_vstack _ _ h, vstackScan_eq]
    rfl
  · constructor
    · intro hne
      unfold picPart at hne
      cases hi : lastStrVal imageChars elems with
      | none => rw [hi] at hne; exact absurd rfl hne
      | some s =>
        rcases foldl_lastStrStep_some_mem imageChars elems none s hi with h0 | hmem
        · exact Option.noConfusion h0
        · exact ⟨s, hmem⟩
    · rintro ⟨s, hmem⟩
      rcases mem_lastStrVal_some imageChars elems s hmem with ⟨t, ht⟩
      unfold picPart
      rw [ht]
      simp
  · constructor
    · intro hne
      unfold labelPart at hne
      cases hi : lastStrVal titleChars elems with
      | none => rw [hi] at hne; exact absurd rfl hne
      | some s =>
        rcases foldl_lastStrStep_some_mem titleChars elems none s hi with h0 | hmem
        · exact Option.noConfusion h0
        · exact ⟨s, hmem⟩
    · rintro ⟨s, hmem⟩
      rcases mem_lastStrVal_some titleChars elems s hmem with ⟨t, ht⟩
      unfold labelPart
      rw [ht]
      simp
  · constructor
    · intro hne
      unfold btnPart at hne
      cases hb : lastStrVal buttonChars elems with
      | none => rw [hb] at hne; exact absurd rfl hne
      | some s =>
        rw [hb] at hne
        by_cases he : s.isEmpty = true
        · simp [he] at hne
        · exact ⟨s, rfl, by simpa using he⟩
    · rintro ⟨s, hs, he⟩
      unfold btnPart
      rw [hs]
      simp [he]
  · intro s hs he
    unfold btnPart
    rw [hs]
    simp [he]

/-- C8 witness: the vertical-stack theorem applied to the concrete
example `title ↦ T`, `button ↦ ""` (the spec's empty-button example). -/
theorem vstack_rule_witness :
    synthesizeLayout [(mkDims 1 1, Value.dict
      [(titleChars, Value.str (strChars "T")), (buttonChars, Value.str [])])] =
      some (IR.vstack
        (picPart [(titleChars, Value.str (strChars "T")), (buttonChars, Value.str [])] ++
         labelPart [(titleChars, Value.str (strChars "T")), (buttonChars, Value.str [])] ++
         [IR.spacer] ++
         btnPart [(titleChars, Value.str (strChars "T")), (buttonChars, Value.str [])])) ∧
    (picPart [(titleChars, Value.str (strChars "T")), (buttonChars, Value.str [])] ≠ [] ↔
      ∃ s, (imageChars, Value.str s) ∈
        [(titleChars, Value.str (strChars "T")), (buttonChars, Value.str [])]) ∧
    (labelPart [(titleChars, Value.str (strChars "T")), (buttonChars, Value.str [])] ≠ [] ↔
      ∃ s, (titleChars, Value.str s) ∈
        [(titleChars, Value.str (strChars "T")), (buttonChars, Value.str [])]) ∧
    (btnPart [(titleChars, Value.str (strChars "T")), (buttonChars, Value.str [])] ≠ [] ↔
      ∃ s, lastStrVal buttonChars
        [(titleChars, Value.str (strChars "T")), (buttonChars, Value.str [])] = some s ∧
        s.isEmpty = false) ∧
    (∀ s, lastStrVal buttonChars
        [(titleChars, Value.str (strChars "T")), (buttonChars, Value.str [])] = some s →
      s.isEmpty = true →
      btnPart [(titleChars, Value.str (strChars "T")), (buttonChars, Value.str [])] = []) :=
  vstack_rule (mkDims 1 1)
    [(titleChars, Value.str (strChars "T")), (buttonChars, Value.str [])] rfl


/-! ## Line-discipline lemmas for the renderer -/

theorem splitOnChar_ne_nil (c : Char) (l : List Char) : splitOnChar c l ≠ [] := by
  cases l with
  | nil => simp [splitOnChar]
  | cons x xs =>
    unfold splitOnChar
    cases h : splitOnChar c xs with
    | nil => simp
    | cons hh tt => by_cases hx : x = c <;> simp [hx]

theorem splitOnChar_cons_eq (c x : Char) (xs hh : List Char) (tt : List (List Char))
    (h : splitOnChar c xs = hh :: tt) :
    splitOnChar c (x :: xs) = if x = c then [] :: hh :: tt else (x :: hh) :: tt := by
  unfold splitOnChar
  rw [h]

theorem not_mem_of_mem_splitOnChar (c : Char) (l : List Char) :
    ∀ p ∈ splitOnChar c l, c ∉ p := by
  induction l with
  | nil => intro p hp; simp [splitOnChar] at hp; simp [hp]
  | cons x xs ih =>
    intro p hp
    obtain ⟨hh, tt, h⟩ := List.exists_cons_of_ne_nil (splitOnChar_ne_nil c xs)
    rw [splitOnChar_cons_eq c x xs hh tt h] at hp
    by_cases hx : x = c
    · rw [if_pos hx] at hp
      rcases List.mem_cons.mp hp with rfl | hp'
      · simp
      · exact ih p (h ▸ hp')
    · rw [if_neg hx] at hp
      rcases List.mem_cons.mp hp with rfl | hp'
      · intro hc
        rcases List.mem_cons.mp hc with rfl | hc'
        · exact hx rfl
        · exact ih hh (h ▸ List.mem_cons_self hh tt) hc'
      · exact ih p (h ▸ List.mem_cons_of_mem hh hp')

theorem splitOnChar_of_not_mem (c : Char) (l : List Char) (h : c ∉ l) :
    splitOnChar c l = [l] := by
  induction l with
  | nil => rfl
  | cons x xs ih =>
    have hx : x ≠ c := fun he => h (by simp [he])
    have hxs : c ∉ xs := fun hm => h (List.mem_cons_of_mem x hm)
    rw [splitOnChar_cons_eq c x xs xs [] (ih hxs), if_neg hx]

theorem splitOnChar_append (c : Char) (a b : List Char) :
    splitOnChar c (a ++ c :: b) = splitOnChar c a ++ splitOnChar c b := by
  induction a with
  | nil =>
    obtain ⟨bh, bt, hb⟩ := List.exists_cons_of_ne_nil (splitOnChar_ne_nil c b)
    show splitOnChar c (c :: b) = [[]] ++ splitOnChar c b
    rw [splitOnChar_cons_eq c c b bh bt hb, if_pos rfl, hb]
    rfl
  | cons x a ih =>
    obtain ⟨ah, at', ha⟩ := List.exists_cons_of_ne_nil (splitOnChar_ne_nil c a)
    obtain ⟨mh, mt, hm⟩ := List.exists_cons_of_ne_nil (splitOnChar_ne_nil c (a ++ c :: b))
    have hcons : splitOnChar c ((x :: a) ++ c :: b) =
        if x = c then [] :: mh :: mt else (x :: mh) :: mt :=
      splitOnChar_cons_eq c x (a ++ c :: b) mh mt hm
    rw [hcons, splitOnChar_cons_eq c x a ah at' ha]
    have hm' : mh :: mt = (ah :: at') ++ splitOnChar c b := by
      rw [← hm, ← ha, ih]
    by_cases hx : x = c
    · rw [if_pos hx, if_pos hx, hm']
      rfl
    · rw [if_neg hx, if_neg hx]
      have hmh : mh = ah := by
        have := hm'
        simp at this
        exact this.1
      have hmt : mt = at' ++ splitOnChar c b := by
        have := hm'
        simp at this
        exact this.2
      rw [hmh, hmt]
      rfl


theorem joinNL_cons_of_ne_nil (x : List Char) (xs : List (List Char)) (h : xs ≠ []) :
    joinNL (x :: xs) = x ++ '\n' :: joinNL xs := by
  obtain ⟨y, ys, rfl⟩ := List.exists_cons_of_ne_nil h
  rfl

theorem splitOnChar_joinNL (xs : List (List Char)) (hne : xs ≠ [])
    (h : ∀ x ∈ xs, '\n' ∉ x) : splitOnChar '\n' (joinNL xs) = xs := by
  induction xs with
  | nil => exact absurd rfl hne
  | cons x xs ih =>
    cases xs with
    | nil =>
      show splitOnChar '\n' (joinNL [x]) = [x]
      exact splitOnChar_of_not_mem '\n' x (h x (by simp))
    | cons y ys =>
      rw [joinNL_cons_of_ne_nil x (y :: ys) (by simp)]
      rw [splitOnChar_append '\n' x (joinNL (y :: ys))]
      rw [splitOnChar_of_not_mem '\n' x (h x (by simp))]
      rw [ih (by simp) (fun z hz => h z (List.mem_cons_of_mem x hz))]
      rfl

theorem joinNL_concat_suffix (ys : List (List Char)) (x : List Char) :
    x <:+ joinNL (ys ++ [x]) := by
  induction ys with
  | nil => exact List.suffix_refl x
  | cons y ys ih =>
    show x <:+ joinNL (y :: (ys ++ [x]))
    rw [joinNL_cons_of_ne_nil y (ys ++ [x]) (by simp)]
    refine ih.trans ?_
    have : y ++ '\n' :: joinNL (ys ++ [x]) = (y ++ ['\n']) ++ joinNL (ys ++ [x]) := by
      simp
    rw [this]
    exact List.suffix_append _ _

theorem dropWhile_idem (p : Char → Bool) (l : List Char) :
    (l.dropWhile p).dropWhile p = l.dropWhile p := by
  induction l with
  | nil => rfl
  | cons x xs ih =>
    by_cases hx : p x = true
    · rw [List.dropWhile_cons_of_pos hx, ih]
    · rw [List.dropWhile_cons_of_neg (by simpa using hx),
        List.dropWhile_cons_of_neg (by simpa using hx)]

theorem rustTrimEnd_idem (l : List Char) :
    rustTrimEnd (rustTrimEnd l) = rustTrimEnd l := by
  unfold rustTrimEnd
  rw [List.reverse_reverse, dropWhile_idem]

theorem head?_dropWhile_not (p : Char → Bool) (l : List Char) (c : Char)
    (h : (l.dropWhile p).head? = some c) : p c = false := by
  induction l with
  | nil => exact Option.noConfusion h
  | cons x xs ih =>
    by_cases hx : p x = true
    · rw [List.dropWhile_cons_of_pos hx] at h
      exact ih h
    · rw [List.dropWhile_cons_of_neg (by simpa using hx)] at h
      have : x = c := by simpa using h
      simpa [← this] using hx

theorem rustTrimEnd_no_trailing_ws (l : List Char) (c : Char)
    (h : (rustTrimEnd l).getLast? = some c) : rustIsWhitespace c = false := by
  unfold rustTrimEnd at h
  rw [List.getLast?_reverse] at h
  exact head?_dropWhile_not rustIsWhitespace l.reverse c h

theorem stripCarriage_of_trimEnd (l : List Char) :
    stripCarriage (rustTrimEnd l) = rustTrimEnd l := by
  unfold stripCarriage
  cases h : (rustTrimEnd l).getLast? with
  | none => simp [lastIs, h]
  | some c =>
    by_cases hc : c = '\r'
    · subst hc
      have := rustTrimEnd_no_trailing_ws l '\r' h
      simp [rustIsWhitespace] at this
    · simp [lastIs, h, hc]

theorem not_mem_rustTrimEnd (a : Char) (l : List Char) (h : a ∉ l) :
    a ∉ rustTrimEnd l := by
  intro hm
  unfold rustTrimEnd at hm
  rw [List.mem_reverse] at hm
  exact h (List.mem_reverse.mp ((List.dropWhile_sublist _).mem hm))

theorem not_mem_stripCarriage (a : Char) (l : List Char) (h : a ∉ l) :
    a ∉ stripCarriage l := by
  intro hm
  unfold stripCarriage at hm
  by_cases hl : lastIs l '\r' = true
  · rw [if_pos hl] at hm
    exact h ((List.dropLast_sublist _).mem hm)
  · rw [if_neg hl] at hm
    exact h hm

theorem rustLines_def (s : List Char) :
    rustLines s =
      (splitOnChar '\n' s).dropLast.map stripCarriage ++
        (match (splitOnChar '\n' s).getLast? with
         | some [] => []
         | some l => [l]
         | none => []) := by
  show (match (splitOnChar '\n' s).getLast? with
        | some [] => (splitOnChar '\n' s).dropLast.map stripCarriage
        | some l => (splitOnChar '\n' s).dropLast.map stripCarriage ++ [l]
        | none => (splitOnChar '\n' s).dropLast.map stripCarriage) =
      (splitOnChar '\n' s).dropLast.map stripCarriage ++
        (match (splitOnChar '\n' s).getLast? with
         | some [] => []
         | some l => [l]
         | none => [])
  cases hg : (splitOnChar '\n' s).getLast? with
  | none => simp
  | some x =>
    cases x with
    | nil => simp
    | cons a b => simp

theorem not_mem_of_mem_rustLines (s l : List Char) (h : l ∈ rustLines s) :
    '\n' ∉ l := by
  rw [rustLines_def] at h
  rcases List.mem_append.mp h with hb | hlast
  · rcases List.mem_map.mp hb with ⟨y, hy, rfl⟩
    exact not_mem_stripCarriage '\n' y
      (not_mem_of_mem_splitOnChar '\n' s y ((List.dropLast_sublist _).mem hy))
  · cases hg : (splitOnChar '\n' s).getLast? with
    | none => rw [hg] at hlast; cases hlast
    | some x =>
      rw [hg] at hlast
      cases x with
      | nil => cases hlast
      | cons xc xrest =>
        have : l = xc :: xrest := by simpa using hlast
        subst this
        exact not_mem_of_mem_splitOnChar '\n' s _ (List.mem_of_mem_getLast? hg)


theorem lines_normalize_trimmed (s : List Char) :
    ∀ l ∈ rustLines (normalizeWhitespaceInternal s), rustTrimEnd l = l := by
  intro l hl
  unfold normalizeWhitespaceInternal at hl
  have hfix : ∀ x ∈ (rustLines s).map rustTrimEnd, rustTrimEnd x = x := by
    intro x hx
    rcases List.mem_map.mp hx with ⟨y, -, rfl⟩
    exact rustTrimEnd_idem y
  have hnn : ∀ x ∈ (rustLines s).map rustTrimEnd, '\n' ∉ x := by
    intro x hx
    rcases List.mem_map.mp hx with ⟨y, hy, rfl⟩
    exact not_mem_rustTrimEnd '\n' y (not_mem_of_mem_rustLines s y hy)
  by_cases hxe : (rustLines s).map rustTrimEnd = []
  · rw [hxe] at hl
    have h0 : rustLines (joinNL ([] : List (List Char))) = [] := rfl
    rw [h0] at hl
    cases hl
  · have hsplit : splitOnChar '\n' (joinNL ((rustLines s).map rustTrimEnd)) =
        (rustLines s).map rustTrimEnd := splitOnChar_joinNL _ hxe hnn
    rw [rustLines_def, hsplit] at hl
    rcases List.mem_append.mp hl with hb | hm
    · rcases List.mem_map.mp hb with ⟨y, hy, rfl⟩
      have hyx : y ∈ (rustLines s).map rustTrimEnd := (List.dropLast_sublist _).mem hy
      have hfy : rustTrimEnd y = y := hfix y hyx
      have hsc : stripCarriage y = y := by
        calc stripCarriage y = stripCarriage (rustTrimEnd y) := by rw [hfy]
        _ = rustTrimEnd y := stripCarriage_of_trimEnd y
        _ = y := hfy
      rw [hsc, hfy]
    · cases hg : ((rustLines s).map rustTrimEnd).getLast? with
      | none => rw [hg] at hm; simp at hm
      | some x =>
        rw [hg] at hm
        cases x with
        | nil => simp at hm
        | cons c r =>
          have hlx : l = c :: r := by simpa using hm
          subst hlx
          exact hfix _ (List.mem_of_mem_getLast? hg)

theorem padding_suffix_normalize (a : List Char) :
    strChars ".padding()" <:+
      normalizeWhitespaceInternal (a ++ '\n' :: (strChars ".padding()" ++ ['\n'])) := by
  have hnp : '\n' ∉ strChars ".padding()" := by decide
  have hsplit : splitOnChar '\n' (a ++ '\n' :: (strChars ".padding()" ++ ['\n'])) =
      splitOnChar '\n' a ++ [strChars ".padding()", []] := by
    have h1 : strChars ".padding()" ++ ['\n'] = strChars ".padding()" ++ '\n' :: [] := rfl
    rw [h1, splitOnChar_append, splitOnChar_append,
      splitOnChar_of_not_mem '\n' _ hnp]
    rfl
  have hcat : splitOnChar '\n' a ++ [strChars ".padding()", []] =
      (splitOnChar '\n' a ++ [strChars ".padding()"]) ++ [[]] := by simp
  have hlast : (splitOnChar '\n' a ++ [strChars ".padding()", []]).getLast? = some [] := by
    rw [hcat, List.getLast?_concat]
  have hdrop : (splitOnChar '\n' a ++ [strChars ".padding()", []]).dropLast =
      splitOnChar '\n' a ++ [strChars ".padding()"] := by
    rw [hcat, List.dropLast_concat]
  have hscP : stripCarriage (strChars ".padding()") = strChars ".padding()" := rfl
  have hlines : rustLines (a ++ '\n' :: (strChars ".padding()" ++ ['\n'])) =
      (splitOnChar '\n' a).map stripCarriage ++ [strChars ".padding()"] := by
    rw [rustLines_def, hsplit, hdrop, hlast]
    simp [hscP]
  unfold normalizeWhitespaceInternal
  rw [hlines, List.map_append]
  have htP : List.map rustTrimEnd [strChars ".padding()"] = [strChars ".padding()"] := by
    simp only [List.map_cons, List.map_nil]
    rfl
  rw [htP]
  exact joinNL_concat_suffix _ _


theorem renderNode_vstack_shape (cs : List IR) :
    renderNode (IR.vstack cs) 0 =
      (strChars "VStack \x7b\n" ++ renderChildren cs 1 ++ ['\x7d']) ++
        '\n' :: (strChars ".padding()" ++ ['\n']) := by
  simp only [renderNode, padChars, Nat.zero_mul, List.replicate, List.nil_append,
    if_pos rfl]
  rw [show (strChars "\x7d\n" : List Char) = '\x7d' :: '\n' :: [] from rfl]
  simp [List.append_assoc]

theorem renderNode_hstack_shape (cs : List IR) :
    renderNode (IR.hstack cs) 0 =
      (strChars "HStack \x7b\n" ++ renderChildren cs 1 ++ ['\x7d']) ++
        '\n' :: (strChars ".padding()" ++ ['\n']) := by
  simp only [renderNode, padChars, Nat.zero_mul, List.replicate, List.nil_append,
    if_pos rfl]
  rw [show (strChars "\x7d\n" : List Char) = '\x7d' :: '\n' :: [] from rfl]
  simp [List.append_assoc]

/-- C5 amended: for every layout tree whose root is a Stack (either
orientation), the rendered output has no trailing whitespace on any
line, and the output ends with the top-level stack's `.padding()`
modifier line with no trailing newline (the `lines`-based
normalization drops the final line ending). -/
theorem render_line_hygiene (cs : List IR) :
    ((∀ l ∈ rustLines (renderSwiftui (IR.vstack cs)), rustTrimEnd l = l) ∧
      strChars ".padding()" <:+ renderSwiftui (IR.vstack cs)) ∧
    ((∀ l ∈ rustLines (renderSwiftui (IR.hstack cs)), rustTrimEnd l = l) ∧
      strChars ".padding()" <:+ renderSwiftui (IR.hstack cs)) := by
  refine ⟨⟨fun l hl => lines_normalize_trimmed _ l hl, ?_⟩,
          ⟨fun l hl => lines_normalize_trimmed _ l hl, ?_⟩⟩
  · show strChars ".padding()" <:+
      normalizeWhitespaceInternal (renderNode (IR.vstack cs) 0)
    rw [renderNode_vstack_shape]
    exact padding_suffix_normalize _
  · show strChars ".padding()" <:+
      normalizeWhitespaceInternal (renderNode (IR.hstack cs) 0)
    rw [renderNode_hstack_shape]
    exact padding_suffix_normalize _

/-- C5 witness: the hygiene theorem applied to the empty vertical
stack, with the line-membership hypothesis discharged at the
`.padding()` line itself. -/
theorem render_line_hygiene_witness :
    rustTrimEnd (strChars ".padding()") = strChars ".padding()" ∧
    strChars ".padding()" <:+ renderSwiftui (IR.vstack []) :=
  ⟨(render_line_hygiene []).1.1 (strChars ".padding()") (by decide),
   (render_line_hygiene []).1.2⟩

end SwiftuiSynth
